import Mathlib

/-!
Verification of the grid / rasterization / tile-cache core of the
open-world repository.  Definitions are shallow embeddings of the
TypeScript source: cell sets are `Finset (ℤ × ℤ)`, cell keys are Lean
`String`s, numeric code runs over `ℚ` (exact) or `ℝ` (projection math).
-/

namespace OpenWorld

/-- A grid cell coordinate, `{x, y}` signed integers (`GridCell` in the source). -/
abbrev Cell : Type := ℤ × ℤ

/-! ## Cell keys (src/src/lib/geocoding/city-data/loader.ts: cellKey, parseCellKey)

JS renders an integer-valued number in a template literal as its decimal
digits with a leading `-` for negatives; `natChars`/`intChars` model that
rendering, `jsNumberInt` models `Number(s)` on the strings that arise here
(`""` is `0`, optional-sign decimal digit runs are their value, anything
else is NaN, modelled as `none`), and `splitComma` models `s.split(",")`. -/

/-- The character of a decimal digit (JS number rendering digit table). -/
def digitChar10 (d : ℕ) : Char :=
  match d with
  | 0 => '0' | 1 => '1' | 2 => '2' | 3 => '3' | 4 => '4'
  | 5 => '5' | 6 => '6' | 7 => '7' | 8 => '8' | _ => '9'

/-- Decimal rendering of a natural number, as JS renders an integer-valued
number in a template literal. -/
def natChars (n : ℕ) : List Char :=
  if n = 0 then ['0'] else ((Nat.digits 10 n).map digitChar10).reverse

/-- Decimal rendering of an integer (leading `-` for negatives), as JS
renders an integer-valued number in a template literal. -/
def intChars (n : ℤ) : List Char :=
  if n < 0 then '-' :: natChars n.natAbs else natChars n.natAbs

/-- `cellKey(cellX, cellY)` from the source: the template literal
`${cellX},${cellY}`. -/
def cellKey (cellX cellY : ℤ) : String :=
  String.mk (intChars cellX ++ ',' :: intChars cellY)

/-- The numeric value of a decimal digit character, `none` for a non-digit. -/
def digitVal (c : Char) : Option ℕ :=
  if 48 ≤ c.toNat ∧ c.toNat ≤ 57 then some (c.toNat - 48) else none

/-- Parse a non-empty run of decimal digits (most significant first);
`none` when empty or when any character is not a digit.  This is the digit
run at the heart of JS `Number(s)`. -/
def parseDigits (l : List Char) : Option ℕ :=
  match l with
  | [] => none
  | _ =>
    l.foldl
      (fun acc c =>
        match acc, digitVal c with
        | some a, some d => some (a * 10 + d)
        | _, _ => none)
      (some 0)

/-- Model of JS `Number(s)` on the strings cell-key parsing faces: the
empty string is `0` (a JS quirk central to claim C7), an optional leading
minus followed by decimal digits is the signed value, anything else is
NaN (`none`).  (Full JS `Number` also accepts floats, hex, whitespace —
none of which a key built from two integers can contain.) -/
def jsNumberInt (l : List Char) : Option ℤ :=
  match l with
  | [] => some 0
  | c :: rest =>
    if c = '-' then
      match parseDigits rest with
      | some m => some (-(m : ℤ))
      | none => none
    else
      match parseDigits (c :: rest) with
      | some m => some ((m : ℤ))
      | none => none

/-- Model of JS `s.split(",")`: split a character list at every comma.
Always returns at least one (possibly empty) piece. -/
def splitComma (l : List Char) : List (List Char) :=
  match l with
  | [] => [[]]
  | c :: rest =>
    if c = ',' then [] :: splitComma rest
    else
      match splitComma rest with
      | [] => [[c]]
      | h :: t => (c :: h) :: t

/-- `parseCellKey(key)` from the source:
`const [x, y] = key.split(",").map(Number)`.  The two components are the
first two split pieces run through `Number`; a missing piece destructures
to `undefined`, which like NaN is not an integer, so both are `none`. -/
def parseCellKey (key : String) : Option ℤ × Option ℤ :=
  let parts := (splitComma key.data).map jsNumberInt
  (((parts.get? 0).getD none), ((parts.get? 1).getD none))

/-! ### Round-trip lemmas for cell keys -/

theorem digitVal_digitChar10 {d : ℕ} (hd : d < 10) :
    digitVal (digitChar10 d) = some d := by
  interval_cases d <;> rfl

theorem digitChar10_ne_comma (d : ℕ) : digitChar10 d ≠ ',' := by
  unfold digitChar10
  split <;> decide

theorem digitChar10_ne_minus (d : ℕ) : digitChar10 d ≠ '-' := by
  unfold digitChar10
  split <;> decide

theorem natChars_ne_nil (n : ℕ) : natChars n ≠ [] := by
  unfold natChars
  split
  · simp
  · simp [Nat.digits_ne_nil_iff_ne_zero, *]

theorem mem_natChars {c : Char} {n : ℕ} (h : c ∈ natChars n) :
    ∃ d, d < 10 ∧ c = digitChar10 d := by
  unfold natChars at h
  split at h
  · refine ⟨0, by norm_num, ?_⟩
    simpa using h
  · rw [List.mem_reverse, List.mem_map] at h
    obtain ⟨d, hd, rfl⟩ := h
    exact ⟨d, Nat.digits_lt_base (by norm_num) hd, rfl⟩

theorem comma_not_mem_natChars (n : ℕ) : ',' ∉ natChars n := by
  intro h
  obtain ⟨d, _, hd⟩ := mem_natChars h
  exact digitChar10_ne_comma d hd.symm

theorem comma_not_mem_intChars (n : ℤ) : ',' ∉ intChars n := by
  unfold intChars
  split
  · intro h
    rcases List.mem_cons.mp h with h | h
    · exact absurd h.symm (by decide)
    · exact comma_not_mem_natChars _ h
  · exact comma_not_mem_natChars _

/-- The digit-run fold over a most-significant-first rendering computes
the accumulator shifted past the digits plus their value. -/
theorem foldl_digits (L : List ℕ) (hL : ∀ d ∈ L, d < 10) (acc : ℕ) :
    List.foldl
      (fun acc c =>
        match acc, digitVal c with
        | some a, some d => some (a * 10 + d)
        | _, _ => none)
      (some acc) ((L.map digitChar10).reverse)
      = some (acc * 10 ^ L.length + Nat.ofDigits 10 L) := by
  induction L generalizing acc with
  | nil => simp
  | cons d L ih =>
    have hd : d < 10 := hL d (List.mem_cons_self d L)
    have hL' : ∀ e ∈ L, e < 10 := fun e he => hL e (List.mem_cons_of_mem d he)
    rw [List.map_cons, List.reverse_cons, List.foldl_append, ih hL']
    simp only [List.foldl_cons, List.foldl_nil, digitVal_digitChar10 hd]
    simp only [List.length_cons, pow_succ, Nat.ofDigits_cons, Option.some.injEq]
    ring

theorem parseDigits_natChars (n : ℕ) : parseDigits (natChars n) = some n := by
  by_cases h : n = 0
  · subst h; rfl
  · have hne := natChars_ne_nil n
    unfold parseDigits
    split
    · exact absurd (by assumption) (by simpa [natChars, h] using hne)
    · have : natChars n = ((Nat.digits 10 n).map digitChar10).reverse := by
        unfold natChars; rw [if_neg h]
      rw [this]
      rw [foldl_digits (Nat.digits 10 n) (fun d hd => Nat.digits_lt_base (by norm_num) hd) 0]
      rw [Nat.ofDigits_digits]
      simp

theorem jsNumberInt_intChars (n : ℤ) : jsNumberInt (intChars n) = some n := by
  unfold intChars
  by_cases hn : n < 0
  · rw [if_pos hn]
    show
      (if '-' = '-' then
        match parseDigits (natChars n.natAbs) with
        | some m => some (-(m : ℤ))
        | none => none
      else
        match parseDigits ('-' :: natChars n.natAbs) with
        | some m => some ((m : ℤ))
        | none => none) = some n
    rw [if_pos rfl, parseDigits_natChars]
    simp only [Option.some.injEq]
    omega
  · rw [if_neg hn]
    obtain ⟨c, rest, hcr⟩ : ∃ c rest, natChars n.natAbs = c :: rest := by
      cases h : natChars n.natAbs with
      | nil => exact absurd h (natChars_ne_nil _)
      | cons c rest => exact ⟨c, rest, rfl⟩
    have hcd : c ≠ '-' := by
      obtain ⟨d, _, hd⟩ := mem_natChars (hcr ▸ List.mem_cons_self c rest)
      rw [hd]; exact digitChar10_ne_minus d
    rw [hcr]
    show
      (if c = '-' then
        match parseDigits rest with
        | some m => some (-(m : ℤ))
        | none => none
      else
        match parseDigits (c :: rest) with
        | some m => some ((m : ℤ))
        | none => none) = some n
    rw [if_neg hcd, ← hcr, parseDigits_natChars]
    simp only [Option.some.injEq]
    omega

theorem splitComma_cons (c : Char) (l : List Char) :
    splitComma (c :: l) =
      if c = ',' then [] :: splitComma l
      else
        match splitComma l with
        | [] => [[c]]
        | h :: t => (c :: h) :: t := rfl

theorem splitComma_no_comma {l : List Char} (h : ',' ∉ l) : splitComma l = [l] := by
  induction l with
  | nil => rfl
  | cons c rest ih =>
    have hc : c ≠ ',' := fun hc => h (hc ▸ List.mem_cons_self c rest)
    have hrest : ',' ∉ rest := fun hr => h (List.mem_cons_of_mem c hr)
    rw [splitComma_cons, if_neg hc, ih hrest]

theorem splitComma_append {a : List Char} (ha : ',' ∉ a) (rest : List Char) :
    splitComma (a ++ ',' :: rest) = a :: splitComma rest := by
  induction a with
  | nil => rw [List.nil_append, splitComma_cons, if_pos rfl]
  | cons c a ih =>
    have hc : c ≠ ',' := fun hc => ha (hc ▸ List.mem_cons_self c a)
    have ha' : ',' ∉ a := fun hr => ha (List.mem_cons_of_mem c hr)
    rw [List.cons_append, splitComma_cons, if_neg hc, ih ha']

/-- C6: parsing the canonical key of any cell coordinate, negative
coordinates included, returns exactly that coordinate
(`parse(key(c)) == c`). -/
theorem parseCellKey_cellKey (x y : ℤ) :
    parseCellKey (cellKey x y) = (some x, some y) := by
  unfold parseCellKey cellKey
  have hx := comma_not_mem_intChars x
  have hy := comma_not_mem_intChars y
  show
    (let parts := (splitComma (intChars x ++ ',' :: intChars y)).map jsNumberInt
    (((parts.get? 0).getD none), ((parts.get? 1).getD none))) = (some x, some y)
  rw [splitComma_append hx, splitComma_no_comma hy]
  simp [jsNumberInt_intChars]

theorem intChars_ne_nil (n : ℤ) : intChars n ≠ [] := by
  unfold intChars
  split
  · simp
  · exact natChars_ne_nil _

/-- C7: the code violates the claim.  The string `","` is not the
canonical key of any cell coordinate (every canonical key has at least
three characters), yet `parseCellKey` silently returns the coordinate
`(0, 0)` for it — `"," .split(",")` gives two empty pieces and JS
`Number("")` is `0` — instead of failing with a detectable error. -/
theorem parseCellKey_comma_silently_zero :
    parseCellKey "," = (some 0, some 0) ∧ ("," : String).length = 1 ∧
      ∀ x y : ℤ, 3 ≤ (cellKey x y).length := by
  refine ⟨by decide, by decide, fun x y => ?_⟩
  show 3 ≤ (intChars x ++ ',' :: intChars y).length
  rw [List.length_append, List.length_cons]
  have hx : 1 ≤ (intChars x).length := List.length_pos.mpr (intChars_ne_nil x)
  have hy : 1 ≤ (intChars y).length := List.length_pos.mpr (intChars_ne_nil y)
  omega

/-! ## Coverage statistics (src/src/lib/stats.ts)

`computeVisitedCountForCells` walks the target set; a target cell counts
as visited when it is directly in `visitedCells` or, falling back to the
fuzzy match, when any cell of the 3×3 neighborhood around it (dx, dy in
-1..1, skipping (0,0)) is in `visitedCells`. -/

/-- The offsets the source's `dx`/`dy` double loop enumerates: `dx` from
-1 to 1 outer, `dy` from -1 to 1 inner, skipping `(0, 0)`. -/
def neighborOffsets : List (ℤ × ℤ) :=
  [(-1, -1), (-1, 0), (-1, 1), (0, -1), (0, 1), (1, -1), (1, 0), (1, 1)]

/-- The per-cell test inside `computeVisitedCountForCells`: direct hit,
or any of the 8 neighbors visited. -/
def cellFuzzyVisited (visitedCells : Finset Cell) (c : Cell) : Bool :=
  decide (c ∈ visitedCells)
    || neighborOffsets.any (fun d => decide ((c.1 + d.1, c.2 + d.2) ∈ visitedCells))

/-- `computeVisitedCountForCells(targetCells, visitedCells)` from the
source: early 0 on an empty target, else the number of target cells
passing the direct-or-fuzzy test. -/
def computeVisitedCountForCells (targetCells visitedCells : Finset Cell) : ℕ :=
  if targetCells.card = 0 then 0
  else (targetCells.filter (fun c => cellFuzzyVisited visitedCells c)).card

/-- `computeVisitedPercentageForCells(targetCells, visitedCells)` from the
source: `(visited / targetCells.size) * 100`, and `0` when the target is
empty. -/
def computeVisitedPercentageForCells (targetCells visitedCells : Finset Cell) : ℚ :=
  let visited := computeVisitedCountForCells targetCells visitedCells
  if targetCells.card = 0 then 0 else ((visited : ℚ) / targetCells.card) * 100

/-- The spec's wording of the fuzzy test: the cell is directly in
`visited`, or one of its 8 planar neighbors (the 3×3 neighborhood
excluding the cell itself) is. -/
def specFuzzyVisited (visitedCells : Finset Cell) (c : Cell) : Prop :=
  c ∈ visitedCells ∨
    ∃ dx ∈ ({-1, 0, 1} : Finset ℤ), ∃ dy ∈ ({-1, 0, 1} : Finset ℤ),
      ¬(dx = 0 ∧ dy = 0) ∧ (c.1 + dx, c.2 + dy) ∈ visitedCells

instance (v : Finset Cell) : DecidablePred (specFuzzyVisited v) := fun _ => by
  unfold specFuzzyVisited
  infer_instance

theorem cellFuzzyVisited_iff (v : Finset Cell) (c : Cell) :
    cellFuzzyVisited v c = true ↔ specFuzzyVisited v c := by
  unfold cellFuzzyVisited specFuzzyVisited neighborOffsets
  simp only [List.any_cons, List.any_nil, Bool.or_eq_true, decide_eq_true_eq,
    Finset.mem_insert, Finset.mem_singleton, Bool.or_false]
  constructor
  · rintro (h | h | h | h | h | h | h | h | h)
    · exact Or.inl h
    · exact Or.inr ⟨-1, by norm_num, -1, by norm_num, by norm_num, h⟩
    · exact Or.inr ⟨-1, by norm_num, 0, by norm_num, by norm_num, h⟩
    · exact Or.inr ⟨-1, by norm_num, 1, by norm_num, by norm_num, h⟩
    · exact Or.inr ⟨0, by norm_num, -1, by norm_num, by norm_num, h⟩
    · exact Or.inr ⟨0, by norm_num, 1, by norm_num, by norm_num, h⟩
    · exact Or.inr ⟨1, by norm_num, -1, by norm_num, by norm_num, h⟩
    · exact Or.inr ⟨1, by norm_num, 0, by norm_num, by norm_num, h⟩
    · exact Or.inr ⟨1, by norm_num, 1, by norm_num, by norm_num, h⟩
  · rintro (h | ⟨dx, hdx, dy, hdy, hne, h⟩)
    · exact Or.inl h
    · rcases hdx with rfl | rfl | rfl <;> rcases hdy with rfl | rfl | rfl <;> tauto

/-- C2: `visitedCount` equals the number of target cells that are in the
visited set directly or have one of their 8 planar neighbors in it; only
target cells are dilated. -/
theorem computeVisitedCountForCells_eq_spec (target visited : Finset Cell) :
    computeVisitedCountForCells target visited
      = (target.filter (fun c => specFuzzyVisited visited c)).card := by
  unfold computeVisitedCountForCells
  split
  · have h : target = ∅ := Finset.card_eq_zero.mp (by assumption)
    subst h
    simp
  · congr 1
    apply Finset.filter_congr
    intro c _
    simpa using cellFuzzyVisited_iff visited c

/-- C3: `visitedPercentage` is `100 × count / |target|`, lies in
`[0, 100]`, and is exactly `0` on an empty target (not NaN, not an
error; `100 * 0 / 0 = 0` in `ℚ` makes the first conjunct cover the empty
case as well). -/
theorem computeVisitedPercentageForCells_spec (target visited : Finset Cell) :
    computeVisitedPercentageForCells target visited
        = 100 * (computeVisitedCountForCells target visited : ℚ) / target.card
      ∧ 0 ≤ computeVisitedPercentageForCells target visited
      ∧ computeVisitedPercentageForCells target visited ≤ 100
      ∧ computeVisitedPercentageForCells ∅ visited = 0 := by
  have hcount : computeVisitedCountForCells target visited ≤ target.card := by
    unfold computeVisitedCountForCells
    split
    · omega
    · exact Finset.card_filter_le _ _
  unfold computeVisitedPercentageForCells
  by_cases h : target.card = 0
  · rw [h]
    simp [computeVisitedCountForCells, h]
  · have hpos : (0 : ℚ) < target.card := by
      exact_mod_cast Nat.pos_of_ne_zero h
    rw [if_neg h]
    refine ⟨by ring, by positivity, ?_, by simp [computeVisitedCountForCells]⟩
    calc ((computeVisitedCountForCells target visited : ℚ) / target.card) * 100
        ≤ 1 * 100 := by
          apply mul_le_mul_of_nonneg_right _ (by norm_num)
          rw [div_le_one hpos]
          exact_mod_cast hcount
      _ = 100 := by norm_num

/-! ## Rectangle compaction (src/unnamed/part_005: mergeToRectangles)

The source works on a `Set<string>` of cell keys; by the key bijection
(claim C6) the embedding works on cell coordinates directly, with the
set's enumeration as a `List Cell` and `cells.has` as list membership
(a JS `Set` never holds duplicates, but no lemma below needs that).
The unbounded `while` loops of `growRectangle` are modelled with
explicit fuel `cells.length + 1`, which is proved sufficient below; the
source marks the covered cells of a grown rectangle as processed inside
`growRectangle`, here the caller unions `rectangleToCells` of the
result into `processed` — the same cell set. -/

/-- `Rectangle`: inclusive cell-coordinate bounds. -/
structure Rectangle where
  minX : ℤ
  minY : ℤ
  maxX : ℤ
  maxY : ℤ
deriving DecidableEq

/-- `rectangleToCells(rect)` from the source: every cell inside the
inclusive bounds. -/
def rectangleToCells (rect : Rectangle) : Finset Cell :=
  Finset.Icc rect.minX rect.maxX ×ˢ Finset.Icc rect.minY rect.maxY

/-- The `while (cells.has(cellKey(start.x + width, start.y))) width++`
loop of `growRectangle`, with fuel. -/
def growWidthGo (cells : List Cell) (x y : ℤ) : ℕ → ℕ → ℕ
  | 0, width => width
  | fuel + 1, width =>
    if (x + width, y) ∈ cells then growWidthGo cells x y fuel (width + 1) else width

/-- The row-completeness test of `growRectangle`: the full next row
(offsets `dx` in `0..width-1`) is present at vertical offset `height`. -/
def rowFull (cells : List Cell) (x y : ℤ) (width height : ℕ) : Bool :=
  (List.range width).all (fun dx => decide ((x + dx, y + height) ∈ cells))

/-- The grow-down loop of `growRectangle`, with fuel. -/
def growHeightGo (cells : List Cell) (x y : ℤ) (width : ℕ) : ℕ → ℕ → ℕ
  | 0, height => height
  | fuel + 1, height =>
    if rowFull cells x y width height
    then growHeightGo cells x y width fuel (height + 1)
    else height

/-- `growRectangle(start, cells, processed)` from the source: scan right
for the width, scan down while every cell of the next full row is
present, and return the inclusive rectangle. -/
def growRectangle (start : Cell) (cells : List Cell) (processed : Finset Cell) :
    Option Rectangle :=
  if start ∉ cells ∨ start ∈ processed then none
  else
    let width := growWidthGo cells start.1 start.2 (cells.length + 1) 1
    let height := growHeightGo cells start.1 start.2 width (cells.length + 1) 1
    some ⟨start.1, start.2, start.1 + width - 1, start.2 + height - 1⟩

/-- The main scan of `mergeToRectangles`: visit the sorted cells, skip
processed ones, grow a rectangle at each remaining cell and mark its
cells processed. -/
def mergeLoopGo (cells : List Cell) : List Cell → Finset Cell → List Rectangle
  | [], _ => []
  | c :: rest, processed =>
    if c ∈ processed then mergeLoopGo cells rest processed
    else
      match growRectangle c cells processed with
      | none => mergeLoopGo cells rest processed
      | some r => r :: mergeLoopGo cells rest (processed ∪ rectangleToCells r)

/-- The sort order of the main scan, `(a, b) => a.y - b.y || a.x - b.x`. -/
def cellLe (a b : Cell) : Prop := a.2 < b.2 ∨ (a.2 = b.2 ∧ a.1 ≤ b.1)

instance : DecidableRel cellLe := fun a b => by unfold cellLe; infer_instance

/-- The sort order of `mergeVerticalRectangles`,
`(a, b) => a.minX - b.minX || a.minY - b.minY`. -/
def rectLe (a b : Rectangle) : Prop :=
  a.minX < b.minX ∨ (a.minX = b.minX ∧ a.minY ≤ b.minY)

instance : DecidableRel rectLe := fun a b => by unfold rectLe; infer_instance

/-- The fold of `mergeVerticalRectangles`: merge the running rectangle
with the next one when they share the x-extent and are vertically
adjacent. -/
def mergeVerticalGo : Rectangle → List Rectangle → List Rectangle
  | current, [] => [current]
  | current, next :: rest =>
    if current.minX = next.minX ∧ current.maxX = next.maxX ∧ current.maxY + 1 = next.minY
    then mergeVerticalGo { current with maxY := next.maxY } rest
    else current :: mergeVerticalGo next rest

/-- `mergeVerticalRectangles(rectangles)` from the source: sort by
`(minX, minY)` and merge vertically adjacent same-x-extent rectangles. -/
def mergeVerticalRectangles (rectangles : List Rectangle) : List Rectangle :=
  match List.insertionSort rectLe rectangles with
  | [] => []
  | h :: t => mergeVerticalGo h t

/-- `mergeToRectangles(cells)` from the source: empty guard, sort by
`(y, x)`, main scan, vertical merge pass. -/
def mergeToRectangles (cells : List Cell) : List Rectangle :=
  if cells = [] then []
  else
    let cellCoords := List.insertionSort cellLe cells
    mergeVerticalRectangles (mergeLoopGo cells cellCoords ∅)

/-- The union of the cells of a list of rectangles (the re-expansion the
round-trip test compares with the input). -/
def cellsOfRects (l : List Rectangle) : Finset Cell :=
  l.foldr (fun r acc => rectangleToCells r ∪ acc) ∅

/-! ### Losslessness of the compaction -/

theorem cellsOfRects_cons (r : Rectangle) (t : List Rectangle) :
    cellsOfRects (r :: t) = rectangleToCells r ∪ cellsOfRects t := rfl

theorem mem_cellsOfRects {c : Cell} {l : List Rectangle} :
    c ∈ cellsOfRects l ↔ ∃ r ∈ l, c ∈ rectangleToCells r := by
  induction l with
  | nil => simp [cellsOfRects]
  | cons r t ih =>
    rw [cellsOfRects_cons, Finset.mem_union, ih]
    simp

theorem cellsOfRects_perm {l l' : List Rectangle} (h : List.Perm l l') :
    cellsOfRects l = cellsOfRects l' := by
  ext c
  rw [mem_cellsOfRects, mem_cellsOfRects]
  constructor <;> rintro ⟨r, hr, hcr⟩
  · exact ⟨r, h.mem_iff.mp hr, hcr⟩
  · exact ⟨r, h.mem_iff.mpr hr, hcr⟩

/-- A family of `k` distinct cells all present in the list bounds `k` by
the list length (used to prove the fuel for the grow loops sufficient). -/
theorem chain_card_le {l : List Cell} (f : ℕ → Cell) (hinj : Function.Injective f)
    (k : ℕ) (h : ∀ j : ℕ, 1 ≤ j → j ≤ k → f j ∈ l) : k ≤ l.length := by
  have h1 : ((Finset.Icc 1 k).image f).card = k := by
    rw [Finset.card_image_of_injective _ hinj, Nat.card_Icc]
    omega
  have h2 : (Finset.Icc 1 k).image f ⊆ l.toFinset := by
    intro c hc
    obtain ⟨j, hj, rfl⟩ := Finset.mem_image.mp hc
    rw [List.mem_toFinset]
    exact h j (Finset.mem_Icc.mp hj).1 (Finset.mem_Icc.mp hj).2
  calc k = ((Finset.Icc 1 k).image f).card := h1.symm
    _ ≤ l.toFinset.card := Finset.card_le_card h2
    _ ≤ l.length := l.toFinset_card_le

theorem growWidthGo_succ (cells : List Cell) (x y : ℤ) (fuel w : ℕ) :
    growWidthGo cells x y (fuel + 1) w =
      if (x + w, y) ∈ cells then growWidthGo cells x y fuel (w + 1) else w := rfl

theorem growHeightGo_succ (cells : List Cell) (x y : ℤ) (width fuel h : ℕ) :
    growHeightGo cells x y width (fuel + 1) h =
      if rowFull cells x y width h then growHeightGo cells x y width fuel (h + 1)
      else h := rfl

theorem growWidthGo_spec (cells : List Cell) (x y : ℤ) :
    ∀ (fuel w0 : ℕ), 1 ≤ w0 →
      (∀ j : ℕ, 1 ≤ j → j < w0 → (x + j, y) ∈ cells) →
      cells.length + 1 ≤ fuel + w0 →
      1 ≤ growWidthGo cells x y fuel w0 ∧
        (∀ j : ℕ, 1 ≤ j → j < growWidthGo cells x y fuel w0 → (x + j, y) ∈ cells) ∧
        (x + (growWidthGo cells x y fuel w0 : ℤ), y) ∉ cells := by
  intro fuel
  induction fuel with
  | zero =>
    intro w0 h1 hinv hfuel
    refine ⟨h1, hinv, fun hmem => ?_⟩
    have hbound : w0 ≤ cells.length := by
      refine chain_card_le (fun j => ((x + j : ℤ), y)) ?_ w0 ?_
      · intro i j hij
        simp only [Prod.mk.injEq] at hij
        omega
      · intro j hj1 hj2
        rcases eq_or_lt_of_le hj2 with rfl | hlt
        · exact hmem
        · exact hinv j hj1 hlt
    omega
  | succ fuel ih =>
    intro w0 h1 hinv hfuel
    rw [growWidthGo_succ]
    by_cases hm : ((x + (w0 : ℤ)), y) ∈ cells
    · rw [if_pos hm]
      refine ih (w0 + 1) (by omega) ?_ (by omega)
      intro j hj1 hj2
      rcases Nat.lt_or_ge j w0 with hlt | hge
      · exact hinv j hj1 hlt
      · have : j = w0 := by omega
        subst this
        exact hm
    · rw [if_neg hm]
      exact ⟨h1, hinv, hm⟩

theorem rowFull_iff (cells : List Cell) (x y : ℤ) (width height : ℕ) :
    rowFull cells x y width height = true
      ↔ ∀ dx : ℕ, dx < width → (x + dx, y + height) ∈ cells := by
  unfold rowFull
  rw [List.all_eq_true]
  constructor
  · intro h dx hdx
    simpa using h dx (List.mem_range.mpr hdx)
  · intro h dx hdx
    simpa using h dx (List.mem_range.mp hdx)

theorem growHeightGo_spec (cells : List Cell) (x y : ℤ) (width : ℕ) :
    ∀ (fuel h0 : ℕ), 1 ≤ h0 →
      (∀ j : ℕ, 1 ≤ j → j < h0 → rowFull cells x y width j = true) →
      1 ≤ growHeightGo cells x y width fuel h0 ∧
        (∀ j : ℕ, 1 ≤ j → j < growHeightGo cells x y width fuel h0 →
          rowFull cells x y width j = true) := by
  intro fuel
  induction fuel with
  | zero =>
    intro h0 h1 hinv
    exact ⟨h1, hinv⟩
  | succ fuel ih =>
    intro h0 h1 hinv
    rw [growHeightGo_succ]
    by_cases hm : rowFull cells x y width h0 = true
    · rw [if_pos hm]
      refine ih (h0 + 1) (by omega) ?_
      intro j hj1 hj2
      rcases Nat.lt_or_ge j h0 with hlt | hge
      · exact hinv j hj1 hlt
      · have : j = h0 := by omega
        subst this
        exact hm
    · rw [if_neg (by simpa using hm)]
      exact ⟨h1, hinv⟩

theorem growRectangle_spec {start : Cell} {cells : List Cell} {processed : Finset Cell}
    (hs : start ∈ cells) (hp : start ∉ processed) :
    ∃ r, growRectangle start cells processed = some r ∧
      r.minX ≤ r.maxX ∧ r.minY ≤ r.maxY ∧
      start ∈ rectangleToCells r ∧
      ∀ c ∈ rectangleToCells r, c ∈ cells := by
  obtain ⟨hw1, hwinv, _⟩ :=
    growWidthGo_spec cells start.1 start.2 (cells.length + 1) 1 (by omega)
      (by omega) (by omega)
  set width := growWidthGo cells start.1 start.2 (cells.length + 1) 1 with hwdef
  obtain ⟨hh1, hhinv⟩ :=
    growHeightGo_spec cells start.1 start.2 width (cells.length + 1) 1 (by omega)
      (by omega)
  set height := growHeightGo cells start.1 start.2 width (cells.length + 1) 1 with hhdef
  refine ⟨⟨start.1, start.2, start.1 + width - 1, start.2 + height - 1⟩, ?_, ?_, ?_, ?_, ?_⟩
  · unfold growRectangle
    rw [if_neg (by push_neg; exact ⟨hs, hp⟩)]
  · simp only
    omega
  · simp only
    omega
  · simp only [rectangleToCells, Finset.mem_product, Finset.mem_Icc]
    constructor <;> constructor <;> omega
  · rintro ⟨a, b⟩ hc
    simp only [rectangleToCells, Finset.mem_product, Finset.mem_Icc] at hc
    obtain ⟨⟨hax, haX⟩, ⟨hby, hbY⟩⟩ := hc
    set dx := (a - start.1).toNat with hdx
    set dy := (b - start.2).toNat with hdy
    have hab : a = start.1 + (dx : ℤ) ∧ b = start.2 + (dy : ℤ) := by
      constructor <;> omega
    have hdxw : dx < width := by omega
    have hdyh : dy < height := by omega
    rcases Nat.eq_zero_or_pos dy with hdy0 | hdypos
    · rcases Nat.eq_zero_or_pos dx with hdx0 | hdxpos
      · have ha : a = start.1 := by omega
        have hb : b = start.2 := by omega
        rw [ha, hb, Prod.mk.eta]
        exact hs
      · have hmem := hwinv dx hdxpos hdxw
        have ha : a = start.1 + (dx : ℤ) := by omega
        have hb : b = start.2 := by omega
        rw [ha, hb]
        exact hmem
    · have hrow := (rowFull_iff cells start.1 start.2 width dy).mp
        (hhinv dy hdypos hdyh) dx hdxw
      have ha : a = start.1 + (dx : ℤ) := by omega
      have hb : b = start.2 + (dy : ℤ) := by omega
      rw [ha, hb]
      exact hrow

theorem mergeLoopGo_cons (cells : List Cell) (c : Cell) (rest : List Cell)
    (processed : Finset Cell) :
    mergeLoopGo cells (c :: rest) processed =
      if c ∈ processed then mergeLoopGo cells rest processed
      else
        match growRectangle c cells processed with
        | none => mergeLoopGo cells rest processed
        | some r => r :: mergeLoopGo cells rest (processed ∪ rectangleToCells r) := rfl

theorem mergeLoopGo_spec (cells : List Cell) :
    ∀ (l : List Cell) (processed : Finset Cell), (∀ c ∈ l, c ∈ cells) →
      (∀ c ∈ cellsOfRects (mergeLoopGo cells l processed), c ∈ cells) ∧
      (∀ c ∈ l, c ∈ processed ∨ c ∈ cellsOfRects (mergeLoopGo cells l processed)) ∧
      (∀ r ∈ mergeLoopGo cells l processed, r.minX ≤ r.maxX ∧ r.minY ≤ r.maxY) := by
  intro l
  induction l with
  | nil =>
    intro processed _
    refine ⟨?_, ?_, ?_⟩ <;> simp [mergeLoopGo, cellsOfRects]
  | cons c rest ih =>
    intro processed hl
    have hc : c ∈ cells := hl c (List.mem_cons_self c rest)
    have hrest : ∀ c' ∈ rest, c' ∈ cells := fun c' hc' => hl c' (List.mem_cons_of_mem c hc')
    by_cases hp : c ∈ processed
    · rw [mergeLoopGo_cons, if_pos hp]
      obtain ⟨h1, h2, h3⟩ := ih processed hrest
      refine ⟨h1, ?_, h3⟩
      intro c' hc'
      rcases List.mem_cons.mp hc' with rfl | hc'
      · exact Or.inl hp
      · exact h2 c' hc'
    · obtain ⟨r, hr, hvx, hvy, hstart, hsub⟩ := growRectangle_spec hc hp
      rw [mergeLoopGo_cons, if_neg hp, hr]
      obtain ⟨h1, h2, h3⟩ := ih (processed ∪ rectangleToCells r) hrest
      refine ⟨?_, ?_, ?_⟩
      · intro c' hc'
        rw [cellsOfRects_cons, Finset.mem_union] at hc'
        rcases hc' with hc' | hc'
        · exact hsub c' hc'
        · exact h1 c' hc'
      · intro c' hc'
        rcases List.mem_cons.mp hc' with rfl | hc'
        · refine Or.inr ?_
          rw [cellsOfRects_cons, Finset.mem_union]
          exact Or.inl hstart
        · rcases h2 c' hc' with hmem | hmem
          · rcases Finset.mem_union.mp hmem with hmem | hmem
            · exact Or.inl hmem
            · refine Or.inr ?_
              rw [cellsOfRects_cons, Finset.mem_union]
              exact Or.inl hmem
          · refine Or.inr ?_
            rw [cellsOfRects_cons, Finset.mem_union]
            exact Or.inr hmem
      · intro r' hr'
        rcases List.mem_cons.mp hr' with rfl | hr'
        · exact ⟨hvx, hvy⟩
        · exact h3 r' hr'

theorem rectangleToCells_merge (current next : Rectangle)
    (hcv : current.minY ≤ current.maxY) (hnv : next.minY ≤ next.maxY)
    (h1 : current.minX = next.minX) (h2 : current.maxX = next.maxX)
    (h3 : current.maxY + 1 = next.minY) :
    rectangleToCells { current with maxY := next.maxY }
      = rectangleToCells current ∪ rectangleToCells next := by
  ext ⟨a, b⟩
  simp only [rectangleToCells, Finset.mem_union, Finset.mem_product, Finset.mem_Icc]
  constructor
  · rintro ⟨⟨hax, haX⟩, ⟨hby, hbY⟩⟩
    by_cases hb : b ≤ current.maxY
    · exact Or.inl ⟨⟨hax, haX⟩, hby, hb⟩
    · exact Or.inr ⟨⟨by omega, by omega⟩, by omega, hbY⟩
  · rintro (⟨⟨hax, haX⟩, ⟨hby, hbY⟩⟩ | ⟨⟨hax, haX⟩, ⟨hby, hbY⟩⟩) <;>
      exact ⟨⟨by omega, by omega⟩, by omega, by omega⟩

theorem mergeVerticalGo_cons (current next : Rectangle) (rest : List Rectangle) :
    mergeVerticalGo current (next :: rest) =
      if current.minX = next.minX ∧ current.maxX = next.maxX ∧ current.maxY + 1 = next.minY
      then mergeVerticalGo { current with maxY := next.maxY } rest
      else current :: mergeVerticalGo next rest := rfl

theorem mergeVerticalGo_cells :
    ∀ (l : List Rectangle) (current : Rectangle),
      current.minY ≤ current.maxY → (∀ r ∈ l, r.minY ≤ r.maxY) →
      cellsOfRects (mergeVerticalGo current l)
        = rectangleToCells current ∪ cellsOfRects l := by
  intro l
  induction l with
  | nil =>
    intro current _ _
    simp [mergeVerticalGo, cellsOfRects]
  | cons next rest ih =>
    intro current hcv hl
    have hnv : next.minY ≤ next.maxY := hl next (List.mem_cons_self next rest)
    have hrest : ∀ r ∈ rest, r.minY ≤ r.maxY := fun r hr => hl r (List.mem_cons_of_mem next hr)
    rw [mergeVerticalGo_cons]
    by_cases hcond :
        current.minX = next.minX ∧ current.maxX = next.maxX ∧ current.maxY + 1 = next.minY
    · rw [if_pos hcond]
      have hmv : ({ current with maxY := next.maxY } : Rectangle).minY
          ≤ ({ current with maxY := next.maxY } : Rectangle).maxY := by
        simp only
        omega
      rw [ih _ hmv hrest,
        rectangleToCells_merge current next hcv hnv hcond.1 hcond.2.1 hcond.2.2,
        cellsOfRects_cons, Finset.union_assoc]
    · rw [if_neg hcond, cellsOfRects_cons, ih next hnv hrest, cellsOfRects_cons]

theorem mergeVerticalRectangles_cells (l : List Rectangle)
    (hl : ∀ r ∈ l, r.minY ≤ r.maxY) :
    cellsOfRects (mergeVerticalRectangles l) = cellsOfRects l := by
  have hperm := List.perm_insertionSort rectLe l
  have hsl : ∀ r ∈ List.insertionSort rectLe l, r.minY ≤ r.maxY :=
    fun r hr => hl r (hperm.mem_iff.mp hr)
  cases hs : List.insertionSort rectLe l with
  | nil =>
    have hln : l = [] := by
      rw [hs] at hperm
      exact hperm.symm.eq_nil
    have : mergeVerticalRectangles l = [] := by
      unfold mergeVerticalRectangles
      rw [hs]
    rw [this, hln]
  | cons h t =>
    rw [hs] at hperm hsl
    have : mergeVerticalRectangles l = mergeVerticalGo h t := by
      unfold mergeVerticalRectangles
      rw [hs]
    rw [this,
      mergeVerticalGo_cells t h (hsl h (List.mem_cons_self h t))
        (fun r hr => hsl r (List.mem_cons_of_mem h hr)),
      ← cellsOfRects_cons]
    exact cellsOfRects_perm hperm

/-- C1 (amended): re-expanding the rectangles returned by
`mergeToRectangles` to cells recovers the input cell set exactly — the
cover is lossless.  (The non-overlap half of the original claim fails;
see the separate counterexample.) -/
theorem mergeToRectangles_lossless (cells : List Cell) :
    cellsOfRects (mergeToRectangles cells) = cells.toFinset := by
  unfold mergeToRectangles
  by_cases hnil : cells = []
  · rw [if_pos hnil, hnil]
    rfl
  · rw [if_neg hnil]
    have hperm := List.perm_insertionSort cellLe cells
    have hmem : ∀ c ∈ List.insertionSort cellLe cells, c ∈ cells :=
      fun c hc => hperm.mem_iff.mp hc
    obtain ⟨h1, h2, h3⟩ := mergeLoopGo_spec cells (List.insertionSort cellLe cells) ∅ hmem
    rw [mergeVerticalRectangles_cells _ (fun r hr => (h3 r hr).2)]
    ext c
    rw [List.mem_toFinset]
    constructor
    · exact fun hc => h1 c hc
    · intro hc
      rcases h2 c (hperm.mem_iff.mpr hc) with hmem0 | hres
      · exact absurd hmem0 (Finset.not_mem_empty c)
      · exact hres

/-- C1 (counterexample): on the cell set `{(1,0), (0,1), (1,1)}` the
source's compaction returns the two rectangles `{0,1,1,1}` and
`{1,0,1,1}`, which both contain the cell `(1,1)` — the returned
rectangles are not pairwise non-overlapping. -/
theorem mergeToRectangles_overlap_counterexample :
    mergeToRectangles [(1, 0), (0, 1), (1, 1)] = [⟨0, 1, 1, 1⟩, ⟨1, 0, 1, 1⟩] ∧
      ((1 : ℤ), (1 : ℤ)) ∈ rectangleToCells ⟨0, 1, 1, 1⟩ ∧
      ((1 : ℤ), (1 : ℤ)) ∈ rectangleToCells ⟨1, 0, 1, 1⟩ := by
  refine ⟨by decide, by decide, by decide⟩

/-! ## Segment rasterization (src/unnamed/part_000: rasterizeLineToRoadCells) -/

/-- `pointToCell(x, y, cellSize)` from the source: floor division of the
planar coordinates by the cell size. -/
def pointToCell (x y cellSize : ℚ) : Cell := (⌊x / cellSize⌋, ⌊y / cellSize⌋)

/-- The planar core of `rasterizeLineToRoadCells(lng1, lat1, lng2, lat2,
cellSize)`.  The source first projects the two endpoints with
`latLngToMeters`; claim C9 states its scenario in planar meters directly,
so the embedding takes the planar endpoints.  The segment's Euclidean
length `Math.sqrt(dx*dx + dy*dy)` — the single non-rational quantity —
is passed in as `dist` and pinned down by `0 ≤ dist ∧ dist² = dx² + dy²`
in the theorem about it; the step count is
`Math.ceil(dist / (cellSize / 2))` and `steps + 1` evenly spaced sample
points (both endpoints included, `t = 0` when `steps == 0`) are floored
into cells. -/
def rasterizeLineToRoadCells (p1 p2 : ℚ × ℚ) (cellSize dist : ℚ) : Finset Cell :=
  let dx := p2.1 - p1.1
  let dy := p2.2 - p1.2
  let steps : ℕ := (⌈dist / (cellSize / 2)⌉).toNat
  (Finset.range (steps + 1)).image (fun (s : ℕ) =>
    let t : ℚ := if steps = 0 then 0 else (s : ℚ) / (steps : ℚ)
    pointToCell (p1.1 + dx * t) (p1.2 + dy * t) cellSize)

/-- C9: with `cellSize = 25`, rasterizing the planar segment from (0,0)
to (0,100) — whose Euclidean length is the nonnegative `dist` with
`dist² = 0² + 100²` — yields exactly the five cells (0,0)…(0,4), and
compacting that cell set yields exactly the single rectangle
`{minX:0, minY:0, maxX:0, maxY:4}`. -/
theorem rasterize_merge_scenario (dist : ℚ) (h0 : 0 ≤ dist)
    (h1 : dist ^ 2 = 0 ^ 2 + 100 ^ 2) :
    rasterizeLineToRoadCells (0, 0) (0, 100) 25 dist
        = ({(0, 0), (0, 1), (0, 2), (0, 3), (0, 4)} : Finset Cell) ∧
      mergeToRectangles [(0, 0), (0, 1), (0, 2), (0, 3), (0, 4)] = [⟨0, 0, 0, 4⟩] := by
  have hf : (dist - 100) * (dist + 100) = 0 := by linear_combination h1
  have hdist : dist = 100 := by
    rcases mul_eq_zero.mp hf with h | h
    · linarith
    · linarith
  subst hdist
  exact ⟨by with_unfolding_all decide, by decide⟩

/-- C9 witness: the previous theorem at the concrete distance 100. -/
theorem rasterize_merge_scenario_witness :
    (0 : ℚ) ≤ 100 ∧ (100 : ℚ) ^ 2 = 0 ^ 2 + 100 ^ 2 ∧
      (rasterizeLineToRoadCells (0, 0) (0, 100) 25 100
          = ({(0, 0), (0, 1), (0, 2), (0, 3), (0, 4)} : Finset Cell) ∧
        mergeToRectangles [(0, 0), (0, 1), (0, 2), (0, 3), (0, 4)] = [⟨0, 0, 0, 4⟩]) :=
  ⟨by norm_num, by norm_num, rasterize_merge_scenario 100 (by norm_num) (by norm_num)⟩

/-! ## Tile cell cache (src/unnamed/part_000: processTile, getCachedTileCells,
cacheTileCells)

The IndexedDB store holds records keyed by the string
`${z}/${x}/${y}/${cellSize}`; the embedding keys by the quadruple
directly.  `cacheGet` models `db.get` (first match), `cachePut` models
`db.put` (overwrite by key, modelled as a prepend that shadows older
entries). -/

/-- The cache key `(z, x, y, cellSize)`. -/
structure TileKey where
  z : ℤ
  x : ℤ
  y : ℤ
  cellSize : ℚ
deriving DecidableEq

/-- The local tile-cell cache contents. -/
abbrev TileCache : Type := List (TileKey × Finset Cell)

/-- `getCachedTileCells(z, x, y, cellSize)` from the source: look the key
up in the store, `null` (here `none`) on a miss. -/
def cacheGet : TileCache → TileKey → Option (Finset Cell)
  | [], _ => none
  | (k', cs) :: rest, k => if k' = k then some cs else cacheGet rest k

/-- `cacheTileCells(z, x, y, cellSize, cells)` from the source: persist
the entry under its key. -/
def cachePut (cache : TileCache) (k : TileKey) (cells : Finset Cell) : TileCache :=
  (k, cells) :: cache

/-- What the miss path's remote fetch and vector-tile decode produce:
no bytes, a decode exception, or the decoded tile's rasterized cells
(possibly empty when no road-like layer exists). -/
inductive MissOutcome where
  | noBytes
  | decodeFailed
  | decoded (cells : Finset Cell)

/-- `processTile(z, x, y)` from the source: on a cache hit use the
cached cells with no fetch; on a miss call `fetchTileBytes` once, and on
a successful decode persist the cells before contributing them.  Returns
the new cache, the number of fetch attempts made (0 or 1), and the cells
contributed to the query union. -/
def processTile (cache : TileCache) (k : TileKey) (o : MissOutcome) :
    TileCache × ℕ × Finset Cell :=
  match cacheGet cache k with
  | some cs => (cache, 0, cs)
  | none =>
    match o with
    | .noBytes => (cache, 1, ∅)
    | .decodeFailed => (cache, 1, ∅)
    | .decoded cs => (cachePut cache k cs, 1, cs)

/-- C5: a cache hit uses the cached cell set and performs no fetch; a
miss followed by a successful decode persists the entry, so a second
identical query is a pure cache hit with zero additional fetches. -/
theorem processTile_cache_spec (cache : TileCache) (k : TileKey) (o o2 : MissOutcome)
    (cs cs2 : Finset Cell) :
    (cacheGet cache k = some cs → processTile cache k o = (cache, 0, cs)) ∧
    (cacheGet cache k = none →
      processTile cache k (.decoded cs2) = (cachePut cache k cs2, 1, cs2) ∧
      cacheGet (cachePut cache k cs2) k = some cs2 ∧
      processTile (cachePut cache k cs2) k o2 = (cachePut cache k cs2, 0, cs2)) := by
  constructor
  · intro h
    unfold processTile
    rw [h]
  · intro h
    have hget : cacheGet (cachePut cache k cs2) k = some cs2 := by
      unfold cachePut cacheGet
      rw [if_pos rfl]
    refine ⟨?_, hget, ?_⟩
    · unfold processTile
      rw [h]
    · unfold processTile
      rw [hget]

/-- C5 witness: the cache scenario run concretely from an empty cache at
tile `(14, 0, 0)` with cell size 25. -/
theorem processTile_cache_spec_witness :
    (cacheGet [] ⟨14, 0, 0, 25⟩ = none) ∧
      (processTile [] ⟨14, 0, 0, 25⟩ (.decoded {(0, 0)})
          = (cachePut [] ⟨14, 0, 0, 25⟩ {(0, 0)}, 1, {(0, 0)}) ∧
        cacheGet (cachePut [] ⟨14, 0, 0, 25⟩ {(0, 0)}) ⟨14, 0, 0, 25⟩ = some {(0, 0)} ∧
        processTile (cachePut [] ⟨14, 0, 0, 25⟩ {(0, 0)}) ⟨14, 0, 0, 25⟩ .noBytes
          = (cachePut [] ⟨14, 0, 0, 25⟩ {(0, 0)}, 0, {(0, 0)})) :=
  ⟨rfl, (processTile_cache_spec [] ⟨14, 0, 0, 25⟩ .noBytes .noBytes ∅ {(0, 0)}).2 rfl⟩

/-! ## Tile source circuit breaker (src/unnamed/part_000: fetchTileBytes,
setRoadPMTilesURL)

The module-level mutable state is `PMTILES_URL` / `pmtiles` (the
`PMTiles` instance exists exactly when the URL is nonempty),
`failureCount` and `circuitOpen`.  `fetchTileBytes` is modelled as a
state transition parameterized by what the single remote `getZxy` call
would do, returning the new state, the number of remote calls made (0 or
1), and whether tile bytes came back. -/

/-- The tile-source module state. -/
structure TileSourceState where
  url : String
  failureCount : ℕ
  circuitOpen : Bool
deriving DecidableEq

/-- `MAX_FAILURES` from the source. -/
def MAX_FAILURES : ℕ := 5

/-- The module state before any configuration: empty URL, counter 0,
breaker closed. -/
def initialTileSourceState : TileSourceState :=
  { url := "", failureCount := 0, circuitOpen := false }

/-- `setRoadPMTilesURL(url)` from the source: no-op when the URL is
unchanged, otherwise swap the source and reset the circuit breaker. -/
def setRoadPMTilesURL (s : TileSourceState) (url : String) : TileSourceState :=
  if s.url = url then s
  else { url := url, failureCount := 0, circuitOpen := false }

/-- What the remote `pmtiles.getZxy` call would do: resolve (with or
without data) or throw. -/
inductive FetchOutcome where
  | success (hasData : Bool)
  | failure
deriving DecidableEq

/-- `fetchTileBytes(z, x, y)` from the source: skip with no data when no
source is configured or the breaker is open; otherwise make the one
remote call — on success reset the counter, on failure increment it and
open the breaker at `MAX_FAILURES`. -/
def fetchTileBytes (s : TileSourceState) (o : FetchOutcome) :
    TileSourceState × ℕ × Bool :=
  if s.url = "" then (s, 0, false)
  else if s.circuitOpen then (s, 0, false)
  else
    match o with
    | .success hasData => ({ s with failureCount := 0 }, 1, hasData)
    | .failure =>
      let fc := s.failureCount + 1
      let opened := if MAX_FAILURES ≤ fc then true else s.circuitOpen
      ({ s with failureCount := fc, circuitOpen := opened }, 1, false)

/-- A sequence of fetch attempts, accumulating the total number of
remote calls. -/
def runFetches (s : TileSourceState) (os : List FetchOutcome) : TileSourceState × ℕ :=
  os.foldl (fun acc o =>
    let r := fetchTileBytes acc.1 o
    (r.1, acc.2 + r.2.1)) (s, 0)

/-- C4: configuring a fresh source yields counter 0 and a closed
breaker; while the breaker is closed each failure increments the counter
and opens the breaker exactly when the counter reaches 5, and a success
resets the counter to 0; with the breaker open every fetch makes zero
remote calls, returns no data and leaves the state unchanged; changing
the URL resets the breaker to closed and the counter to 0.  Concretely,
five straight failures from a fresh source open the breaker after 5
remote calls and a sixth attempt makes none. -/
theorem circuitBreaker_spec (s : TileSourceState) (u : String) (o : FetchOutcome)
    (hasData : Bool) :
    (u ≠ "" → setRoadPMTilesURL initialTileSourceState u
        = { url := u, failureCount := 0, circuitOpen := false }) ∧
    (s.url ≠ "" → s.circuitOpen = false →
      (fetchTileBytes s .failure).1.failureCount = s.failureCount + 1 ∧
      (fetchTileBytes s .failure).2.1 = 1 ∧
      ((fetchTileBytes s .failure).1.circuitOpen = true ↔ 5 ≤ s.failureCount + 1)) ∧
    (s.url ≠ "" → s.circuitOpen = false →
      (fetchTileBytes s (.success hasData)).1.failureCount = 0) ∧
    (s.circuitOpen = true → fetchTileBytes s o = (s, 0, false)) ∧
    (u ≠ s.url → setRoadPMTilesURL s u
        = { url := u, failureCount := 0, circuitOpen := false }) ∧
    (u ≠ "" →
      runFetches (setRoadPMTilesURL initialTileSourceState u)
          (List.replicate 5 .failure)
        = ({ url := u, failureCount := 5, circuitOpen := true }, 5) ∧
      fetchTileBytes { url := u, failureCount := 5, circuitOpen := true } o
        = ({ url := u, failureCount := 5, circuitOpen := true }, 0, false)) := by
  have hset : ∀ v : String, v ≠ "" →
      setRoadPMTilesURL initialTileSourceState v
        = { url := v, failureCount := 0, circuitOpen := false } := by
    intro v hv
    unfold setRoadPMTilesURL initialTileSourceState
    rw [if_neg (fun h => hv h.symm)]
  refine ⟨hset u, ?_, ?_, ?_, ?_, ?_⟩
  · intro hu hop
    have hbranch : fetchTileBytes s .failure
        = ({ s with
              failureCount := s.failureCount + 1
              circuitOpen := if 5 ≤ s.failureCount + 1 then true else s.circuitOpen },
            1, false) := by
      unfold fetchTileBytes MAX_FAILURES
      rw [if_neg hu, if_neg (by simp [hop])]
    rw [hbranch]
    refine ⟨rfl, rfl, ?_⟩
    constructor
    · intro h
      by_contra hcon
      simp only [if_neg hcon, hop] at h
      exact Bool.false_ne_true h
    · intro h
      simp only [if_pos h]
  · intro hu hop
    have hbranch : fetchTileBytes s (.success hasData)
        = ({ s with failureCount := 0 }, 1, hasData) := by
      unfold fetchTileBytes
      rw [if_neg hu, if_neg (by simp [hop])]
    rw [hbranch]
  · intro hop
    unfold fetchTileBytes
    by_cases hu : s.url = ""
    · rw [if_pos hu]
    · rw [if_neg hu, if_pos (by simp [hop])]
  · intro hu
    unfold setRoadPMTilesURL
    rw [if_neg (fun h => hu h.symm)]
  · intro hu
    have e0 : fetchTileBytes { url := u, failureCount := 0, circuitOpen := false } .failure
        = ({ url := u, failureCount := 1, circuitOpen := false }, 1, false) := by
      simp [fetchTileBytes, MAX_FAILURES, hu]
    have e1 : fetchTileBytes { url := u, failureCount := 1, circuitOpen := false } .failure
        = ({ url := u, failureCount := 2, circuitOpen := false }, 1, false) := by
      simp [fetchTileBytes, MAX_FAILURES, hu]
    have e2 : fetchTileBytes { url := u, failureCount := 2, circuitOpen := false } .failure
        = ({ url := u, failureCount := 3, circuitOpen := false }, 1, false) := by
      simp [fetchTileBytes, MAX_FAILURES, hu]
    have e3 : fetchTileBytes { url := u, failureCount := 3, circuitOpen := false } .failure
        = ({ url := u, failureCount := 4, circuitOpen := false }, 1, false) := by
      simp [fetchTileBytes, MAX_FAILURES, hu]
    have e4 : fetchTileBytes { url := u, failureCount := 4, circuitOpen := false } .failure
        = ({ url := u, failureCount := 5, circuitOpen := true }, 1, false) := by
      simp [fetchTileBytes, MAX_FAILURES, hu]
    have hopen : fetchTileBytes { url := u, failureCount := 5, circuitOpen := true } o
        = ({ url := u, failureCount := 5, circuitOpen := true }, 0, false) := by
      simp [fetchTileBytes, hu]
    have hrun : runFetches { url := u, failureCount := 0, circuitOpen := false }
        (List.replicate 5 .failure)
        = ({ url := u, failureCount := 5, circuitOpen := true }, 5) := by
      show runFetches { url := u, failureCount := 0, circuitOpen := false }
        [.failure, .failure, .failure, .failure, .failure] = _
      unfold runFetches
      simp only [List.foldl_cons, List.foldl_nil, e0, e1, e2, e3, e4]
    rw [hset u hu]
    exact ⟨hrun, hopen⟩

/-- C4 witness: the breaker scenario at concrete states — configuring
the source `"pm2"`, a 5th failure at counter 4 opening the breaker, a
success resetting the counter, a skipped fetch while open, and the URL
change resetting the breaker, plus the 5-failure trace. -/
theorem circuitBreaker_spec_witness :
    setRoadPMTilesURL initialTileSourceState "pm2"
        = { url := "pm2", failureCount := 0, circuitOpen := false } ∧
      (fetchTileBytes ⟨"pm", 4, false⟩ .failure).1.failureCount = 4 + 1 ∧
      (fetchTileBytes ⟨"pm", 4, false⟩ .failure).1.circuitOpen = true ∧
      (fetchTileBytes ⟨"pm", 0, false⟩ (.success true)).1.failureCount = 0 ∧
      fetchTileBytes ⟨"pm", 5, true⟩ .failure = (⟨"pm", 5, true⟩, 0, false) ∧
      setRoadPMTilesURL ⟨"pm", 5, true⟩ "pm2"
        = { url := "pm2", failureCount := 0, circuitOpen := false } ∧
      runFetches (setRoadPMTilesURL initialTileSourceState "pm2")
          (List.replicate 5 .failure)
        = ({ url := "pm2", failureCount := 5, circuitOpen := true }, 5) := by
  have h1 := circuitBreaker_spec ⟨"pm", 4, false⟩ "pm2" .failure true
  have h2 := circuitBreaker_spec ⟨"pm", 0, false⟩ "pm2" .failure true
  have h3 := circuitBreaker_spec ⟨"pm", 5, true⟩ "pm2" .failure true
  refine ⟨h1.1 (by decide), (h1.2.1 (by decide) rfl).1, ?_, ?_, ?_, ?_, ?_⟩
  · exact (h1.2.1 (by decide) rfl).2.2.mpr (by norm_num)
  · exact h2.2.2.1 (by decide) rfl
  · exact h3.2.2.2.1 rfl
  · exact h3.2.2.2.2.1 (by decide)
  · exact (h3.2.2.2.2.2 (by decide)).1

/-! ## Polyline trimming (src/src/lib/geocoding/city-data/loader.ts:
trimPolylineByDistance)

The source measures segments with `haversineDistance` (transcendental
floating-point math); the embedding abstracts the metric as the
parameter `dist` — the trimming logic only ever evaluates it on
consecutive vertices and interpolates linearly in lat/lng exactly as
the source does.  The counterexample below instantiates `dist` with the
latitude-difference metric, which is what the haversine distance is
(up to the fixed scale factor `EARTH_RADIUS * π / 180`, absorbed into
the units) for points sharing a longitude on one meridian. -/

/-- A `[lat, lng]` vertex. -/
abbrev LatLng : Type := ℚ × ℚ

/-- The linear lat/lng interpolation of the source's cut points:
`lat1 + (lat2 - lat1) * ratio` and likewise for `lng`. -/
def interpLatLng (p q : LatLng) (ratio : ℚ) : LatLng :=
  (p.1 + (q.1 - p.1) * ratio, p.2 + (q.2 - p.2) * ratio)

/-- The start-trim loop of `trimPolylineByDistance`: walk forward
accumulating segment lengths until `d` is passed; return the cut point
(`startPoint`) and the tail it is prepended to (`points[startCutIndex..]`),
or `none` when the whole polyline is shorter than `d` (the source's
`!startPoint`). -/
def findStartCut (dist : LatLng → LatLng → ℚ) (d : ℚ) :
    LatLng → List LatLng → ℚ → Option (LatLng × List LatLng)
  | _, [], _ => none
  | prev, p :: rest, acc =>
    let seg := dist prev p
    if d ≤ acc + seg then
      let needed := d - acc
      if needed ≤ 0 then some (p, rest)
      else if seg ≤ needed then some (p, rest)
      else some (interpLatLng prev p (needed / seg), p :: rest)
    else findStartCut dist d p rest (acc + seg)

/-- The end-trim loop, walking the reversed remainder (the source's
index loop from `filtered.length - 1` downward): `cur` is `filtered[i]`
and `p` is `filtered[i-1]`, so the segment is `dist p cur`.  Returns the
cut point (`endPoint`) and the reversed kept prefix
(`filtered[0..endCutIndex]`), or `none` when the remainder is shorter
than `d` (the source's `!endPoint`). -/
def findEndCut (dist : LatLng → LatLng → ℚ) (d : ℚ) :
    LatLng → List LatLng → ℚ → Option (LatLng × List LatLng)
  | _, [], _ => none
  | cur, p :: rest, acc =>
    let seg := dist p cur
    if d ≤ acc + seg then
      let needed := d - acc
      if needed ≤ 0 then some (p, p :: rest)
      else if seg ≤ needed then some (p, p :: rest)
      else some (interpLatLng p cur ((seg - needed) / seg), p :: rest)
    else findEndCut dist d p rest (acc + seg)

/-- `trimPolylineByDistance(points, distanceMeters)` from the source:
guard for disabled trimming and short polylines, trim the start with
interpolation, bail out to `[]` when nothing remains, trim the end with
interpolation, and return the remainder as long as 2 points survive —
including, when the end loop finds no cut, the start-trimmed remainder
unchanged. -/
def trimPolylineByDistance (dist : LatLng → LatLng → ℚ) (points : List LatLng)
    (distanceMeters : ℚ) : List LatLng :=
  if distanceMeters ≤ 0 ∨ points.length < 3 then points
  else
    match points with
    | [] => points
    | p0 :: rest =>
      match findStartCut dist distanceMeters p0 rest 0 with
      | none => []
      | some (sp, tail) =>
        let filtered := sp :: tail
        if filtered.length < 2 then []
        else
          match filtered.reverse with
          | [] => []
          | q0 :: qrest =>
            match findEndCut dist distanceMeters q0 qrest 0 with
            | none => if 2 ≤ filtered.length then filtered else []
            | some (ep, keptRev) =>
              let result := keptRev.reverse ++ [ep]
              if 2 ≤ result.length then result else []

/-- The total arc length of a polyline under the metric (the quantity
the claim's `2 × distanceMeters` bound refers to). -/
def polylineLength (dist : LatLng → LatLng → ℚ) : List LatLng → ℚ
  | p :: q :: rest => dist p q + polylineLength dist (q :: rest)
  | _ => 0

/-- C8: the code violates the claim.  Under the meridian metric, the
3-point polyline (0,0)–(10,0)–(20,0) has total length 20 < 2 × 15, yet
trimming 15 from each end returns the non-empty 2-point polyline
(15,0)–(20,0): the start is trimmed, but the remainder (length 5) is
shorter than `distanceMeters`, so the end loop finds no cut and the
code returns the remainder with the end untrimmed instead of the empty
polyline.  A 2-point polyline is returned entirely unchanged by the
`points.length < 3` guard, however short it is. -/
theorem trimPolylineByDistance_short_counterexample :
    polylineLength (fun p q => |q.1 - p.1|) [((0 : ℚ), (0 : ℚ)), (10, 0), (20, 0)] = 20 ∧
      trimPolylineByDistance (fun p q => |q.1 - p.1|)
          [((0 : ℚ), (0 : ℚ)), (10, 0), (20, 0)] 15
        = [(15, 0), (20, 0)] ∧
      trimPolylineByDistance (fun p q => |q.1 - p.1|) [((0 : ℚ), (0 : ℚ)), (10, 0)] 15
        = [(0, 0), (10, 0)] := by
  refine ⟨by with_unfolding_all decide, by with_unfolding_all decide,
    by with_unfolding_all decide⟩

/-! ## Web-Mercator projection (src/src/lib/geocoding/city-data/loader.ts:
latLngToMeters, metersToLatLng)

Real-valued model of the float math; over `ℝ` the forward/inverse pair
is an exact round trip, which implies the claim's "within floating-point
tolerance". -/

/-- `EARTH_RADIUS` from the source (WGS84, meters). -/
noncomputable def EARTH_RADIUS : ℝ := 6378137

/-- `ORIGIN_SHIFT = Math.PI * EARTH_RADIUS` from the source. -/
noncomputable def ORIGIN_SHIFT : ℝ := Real.pi * EARTH_RADIUS

/-- `latLngToMeters(lat, lng)` from the source. -/
noncomputable def latLngToMeters (lat lng : ℝ) : ℝ × ℝ :=
  let x := lng * ORIGIN_SHIFT / 180
  let y0 := Real.log (Real.tan ((90 + lat) * Real.pi / 360)) / (Real.pi / 180)
  (x, y0 * ORIGIN_SHIFT / 180)

/-- `metersToLatLng(x, y)` from the source, returned as `(lat, lng)`. -/
noncomputable def metersToLatLng (x y : ℝ) : ℝ × ℝ :=
  let lng := x / ORIGIN_SHIFT * 180
  let lat0 := y / ORIGIN_SHIFT * 180
  let lat := 180 / Real.pi *
    (2 * Real.arctan (Real.exp (lat0 * Real.pi / 180)) - Real.pi / 2)
  (lat, lng)

/-- C10: for every geographic point with latitude strictly between -90
and 90 degrees, converting to planar Web-Mercator meters and back
recovers the point exactly over the reals (a fortiori within
floating-point tolerance). -/
theorem metersToLatLng_latLngToMeters (lat lng : ℝ) (h1 : -90 < lat) (h2 : lat < 90) :
    metersToLatLng (latLngToMeters lat lng).1 (latLngToMeters lat lng).2 = (lat, lng) := by
  have hπ : (0 : ℝ) < Real.pi := Real.pi_pos
  have hR : (0 : ℝ) < EARTH_RADIUS := by unfold EARTH_RADIUS; norm_num
  have hOS : (0 : ℝ) < ORIGIN_SHIFT := by unfold ORIGIN_SHIFT; positivity
  have hθpos : 0 < (90 + lat) * Real.pi / 360 := by
    apply div_pos (mul_pos (by linarith) hπ) (by norm_num)
  have hθlt : (90 + lat) * Real.pi / 360 < Real.pi / 2 := by
    rw [div_lt_div_iff₀ (by norm_num) (by norm_num)]
    nlinarith
  have htan : 0 < Real.tan ((90 + lat) * Real.pi / 360) :=
    Real.tan_pos_of_pos_of_lt_pi_div_two hθpos hθlt
  unfold metersToLatLng latLngToMeters
  simp only
  have harg :
      Real.log (Real.tan ((90 + lat) * Real.pi / 360)) / (Real.pi / 180) * ORIGIN_SHIFT
          / 180 / ORIGIN_SHIFT * 180 * Real.pi / 180
        = Real.log (Real.tan ((90 + lat) * Real.pi / 360)) := by
    field_simp
    ring
  rw [harg, Real.exp_log htan,
    Real.arctan_tan (by linarith) hθlt]
  rw [Prod.mk.injEq]
  constructor
  · field_simp
    ring
  · field_simp
    ring

/-- C10 witness: the round trip at the equator origin. -/
theorem metersToLatLng_latLngToMeters_witness :
    metersToLatLng (latLngToMeters 0 0).1 (latLngToMeters 0 0).2 = (0, 0) :=
  metersToLatLng_latLngToMeters 0 0 (by norm_num) (by norm_num)

end OpenWorld
